import Mathlib

/-!
Shallow embedding of the Speakofy application (`src/parental_control.py`).

Python strings are modelled as `List Char`; `Option` models Python `None`;
the SQLite tables `users` and `files` are modelled as lists of records kept
in insertion order together with the next AUTOINCREMENT id.  Each definition
mirrors one function or Streamlit block of the source file.
-/

set_option autoImplicit false

namespace Speakofy

/-- Python text is modelled as a list of characters. -/
abbrev Text := List Char

/-- Python truthiness of an optional string: `None` and `""` are falsy. -/
def pyTruthy : Option Text → Bool
  | none => false
  | some s => !s.isEmpty

/-- Characters removed by Python `str.strip()` with no argument. -/
def isPyWs (ch : Char) : Bool :=
  ch == ' ' || ch == '\t' || ch == '\n' || ch == '\r' ||
    ch == Char.ofNat 11 || ch == Char.ofNat 12

/-- Remove trailing whitespace characters. -/
def stripTrail (s : Text) : Text :=
  (s.reverse.dropWhile isPyWs).reverse

/-- Python `str.strip()`: remove trailing and leading whitespace. -/
def pyStrip (s : Text) : Text :=
  (stripTrail s).dropWhile isPyWs

/-- One iteration of the page loop of `extract_pdf_text`
(`src/parental_control.py` lines 86-89): `if pg: text += pg + "\n"`.
`pg` is `none` when `page.extract_text()` returned `None`. -/
def extractStep (text : Text) (pg : Option Text) : Text :=
  match pg with
  | none => text
  | some s => if s.isEmpty then text else text ++ s ++ ['\n']

/-- Model of `extract_pdf_text` (`src/parental_control.py` lines 83-90).  A PDF is
modelled by the list of its per-page extraction results, in page order. -/
def extract_pdf_text (pages : List (Option Text)) : Text :=
  pyStrip (pages.foldl extractStep [])

/-- The page texts kept by the loop of `extract_pdf_text`: pages whose
extraction result is truthy, in page order. -/
def keptTexts : List (Option Text) → List Text
  | [] => []
  | none :: ps => keptTexts ps
  | some s :: ps => if s.isEmpty then keptTexts ps else s :: keptTexts ps

/-- Concatenation of text blocks with a newline appended after every block. -/
def joinNl : List Text → Text
  | [] => []
  | t :: ts => t ++ '\n' :: joinNl ts

/-- Modelled from the spec wording: the blocks joined with a single newline
between consecutive blocks (no trailing newline). -/
def sepJoinNl : List Text → Text
  | [] => []
  | [t] => t
  | t :: t2 :: ts => t ++ '\n' :: sepJoinNl (t2 :: ts)

/-- Whether a text contains a character that `str.strip()` would keep. -/
def hasNonWs (s : Text) : Bool :=
  s.any (fun c => !isPyWs c)

theorem foldl_extractStep (pages : List (Option Text)) :
    ∀ acc : Text, pages.foldl extractStep acc = acc ++ joinNl (keptTexts pages) := by
  induction pages with
  | nil => intro acc; simp [joinNl, keptTexts]
  | cons pg ps ih =>
    intro acc
    cases pg with
    | none =>
      have h1 : (none :: ps).foldl extractStep acc = ps.foldl extractStep acc := rfl
      rw [h1, ih, show keptTexts (none :: ps) = keptTexts ps from rfl]
    | some s =>
      by_cases h : s.isEmpty
      · have h1 : (some s :: ps).foldl extractStep acc = ps.foldl extractStep acc := by
          simp [List.foldl_cons, extractStep, h]
        rw [h1, ih]
        simp [keptTexts, h]
      · have h1 : (some s :: ps).foldl extractStep acc
            = ps.foldl extractStep (acc ++ s ++ ['\n']) := by
          simp [List.foldl_cons, extractStep, h]
        rw [h1, ih]
        simp [keptTexts, h, joinNl, List.append_assoc]

theorem joinNl_eq_sepJoinNl (l : List Text) (hl : l ≠ []) :
    joinNl l = sepJoinNl l ++ ['\n'] := by
  induction l with
  | nil => cases hl rfl
  | cons t ts ih =>
    cases ts with
    | nil => simp [joinNl, sepJoinNl]
    | cons t2 ts2 =>
      rw [show joinNl (t :: t2 :: ts2) = t ++ '\n' :: joinNl (t2 :: ts2) from rfl,
        ih (by simp),
        show sepJoinNl (t :: t2 :: ts2) = t ++ '\n' :: sepJoinNl (t2 :: ts2) from rfl]
      simp

theorem stripTrail_append_nl (x : Text) : stripTrail (x ++ ['\n']) = stripTrail x := by
  unfold stripTrail
  rw [List.reverse_append]
  have h1 : (['\n'] : Text).reverse ++ x.reverse = '\n' :: x.reverse := rfl
  rw [h1, List.dropWhile_cons]
  have h2 : isPyWs '\n' = true := by decide
  rw [h2]
  simp

theorem pyStrip_append_nl (x : Text) : pyStrip (x ++ ['\n']) = pyStrip x := by
  unfold pyStrip
  rw [stripTrail_append_nl]

theorem hasNonWs_dropWhile (s : Text) :
    hasNonWs (s.dropWhile isPyWs) = hasNonWs s := by
  induction s with
  | nil => rfl
  | cons c t ih =>
    rw [List.dropWhile_cons]
    by_cases h : isPyWs c
    · simp only [h, if_true, ih]
      simp [hasNonWs, List.any_cons, h]
    · simp [h]

theorem hasNonWs_reverse (s : Text) : hasNonWs s.reverse = hasNonWs s := by
  induction s with
  | nil => rfl
  | cons c t ih =>
    rw [List.reverse_cons]
    unfold hasNonWs at ih ⊢
    simp only [List.any_append, List.any_cons, List.any_nil, Bool.or_false]
    rw [ih]
    exact Bool.or_comm _ _

theorem hasNonWs_pyStrip (s : Text) : hasNonWs (pyStrip s) = hasNonWs s := by
  unfold pyStrip stripTrail
  rw [hasNonWs_dropWhile, hasNonWs_reverse, hasNonWs_dropWhile, hasNonWs_reverse]

theorem pyStrip_ne_nil (s : Text) (h : hasNonWs s = true) : pyStrip s ≠ [] := by
  intro hnil
  have h3 := hasNonWs_pyStrip s
  rw [hnil, h] at h3
  exact absurd h3 (by decide)

theorem hasNonWs_joinNl {t : Text} {l : List Text} (ht : t ∈ l)
    (h : hasNonWs t = true) : hasNonWs (joinNl l) = true := by
  induction l with
  | nil => cases ht
  | cons a rest ih =>
    rw [show joinNl (a :: rest) = a ++ '\n' :: joinNl rest from rfl]
    unfold hasNonWs at h ih ⊢
    rw [List.any_append, List.any_cons]
    rcases List.mem_cons.mp ht with h1 | h1
    · subst h1
      rw [h]
      rfl
    · rw [ih h1]
      cases a.any (fun c => !isPyWs c) <;> cases (!isPyWs '\n') <;> rfl

/-- C1 counterexample: a one-page PDF whose page extraction result is the
single space `" "` is text-bearing in the code's sense (it is kept by
`if pg:`), yet `extract_pdf_text` returns the empty string, so the claimed
non-emptiness fails. -/
theorem extract_whitespace_page_empty :
    pyTruthy (some [' ']) = true ∧
    keptTexts [some [' ']] = [[' ']] ∧
    extract_pdf_text [some [' ']] = [] := by
  refine ⟨by decide, by decide, by decide⟩

/-- C1 (amended): `extract_pdf_text` always returns the trimmed
newline-separated join of the kept page texts in page order, and the result
is non-empty whenever at least one kept page text contains a non-whitespace
character. -/
theorem extract_pdf_text_spec (pages : List (Option Text)) :
    extract_pdf_text pages = pyStrip (sepJoinNl (keptTexts pages)) ∧
    ((∃ t ∈ keptTexts pages, hasNonWs t = true) → extract_pdf_text pages ≠ []) := by
  have hbase : extract_pdf_text pages = pyStrip (joinNl (keptTexts pages)) := by
    unfold extract_pdf_text
    rw [foldl_extractStep]
    simp
  constructor
  · cases hk : keptTexts pages with
    | nil =>
      rw [hbase, hk]
      rfl
    | cons a l =>
      rw [hbase, hk, joinNl_eq_sepJoinNl _ (by simp), pyStrip_append_nl]
  · rintro ⟨t, ht, hnw⟩
    rw [hbase]
    exact pyStrip_ne_nil _ (hasNonWs_joinNl ht hnw)

/-- Witness for C1 (amended) at a concrete two-page PDF. -/
theorem extract_pdf_text_spec_witness :
    extract_pdf_text [some ['h', 'i'], none] ≠ [] :=
  (extract_pdf_text_spec [some ['h', 'i'], none]).2 ⟨['h', 'i'], by decide, by decide⟩

/-- A calendar date with the fields Python `datetime.date` exposes. -/
structure PyDate where
  year : Int
  month : Nat
  day : Nat
deriving DecidableEq

/-- A row of the `users` table (`src/parental_control.py` lines 20-28). -/
structure UserRec where
  id : Nat
  name : Text
  email : Text
  password : Text
  dob : PyDate
deriving DecidableEq

/-- A row of the `files` table (`src/parental_control.py` lines 30-38). -/
structure FileRec where
  id : Nat
  userId : Nat
  filename : Text
  content : Text
deriving DecidableEq

/-- The SQLite database: both tables in insertion order, plus the next
AUTOINCREMENT id of each table. -/
structure DB where
  users : List UserRec
  files : List FileRec
  nextUserId : Nat
  nextFileId : Nat
deriving DecidableEq

/-- A freshly created database (AUTOINCREMENT starts at 1). -/
def DB.empty : DB := DB.mk [] [] 1 1

/-- Model of `add_user` (lines 42-44): INSERT INTO users. -/
def add_user (db : DB) (name email password : Text) (dob : PyDate) : DB :=
  DB.mk (db.users ++ [UserRec.mk db.nextUserId name email password dob])
    db.files (db.nextUserId + 1) db.nextFileId

/-- Model of `user_exists` (lines 50-52): SELECT 1 FROM users WHERE email = ?. -/
def user_exists (db : DB) (email : Text) : Bool :=
  db.users.any (fun u => u.email == email)

/-- Model of `save_file` (lines 58-60): INSERT INTO files. -/
def save_file (db : DB) (userId : Nat) (filename content : Text) : DB :=
  DB.mk db.users (db.files ++ [FileRec.mk db.nextFileId userId filename content])
    db.nextUserId (db.nextFileId + 1)

/-- Insertion into a list sorted by strictly decreasing id. -/
def insertDesc (f : FileRec) : List FileRec → List FileRec
  | [] => [f]
  | g :: gs => if g.id ≤ f.id then f :: g :: gs else g :: insertDesc f gs

/-- Model of `ORDER BY id DESC` over the `files` table. -/
def sortByIdDesc (l : List FileRec) : List FileRec :=
  l.foldr insertDesc []

/-- Model of `get_user_last_file_content` (lines 62-65):
SELECT content FROM files WHERE user_id = ? ORDER BY id DESC LIMIT 1. -/
def get_user_last_file_content (db : DB) (userId : Nat) : Option Text :=
  ((sortByIdDesc (db.files.filter (fun f => f.userId == userId))).head?).map
    (fun f => f.content)

/-- Model of `get_file_content_by_id` (lines 77-80):
SELECT content FROM files WHERE id = ?. -/
def get_file_content_by_id (db : DB) (fileId : Nat) : Option Text :=
  (db.files.find? (fun f => f.id == fileId)).map (fun f => f.content)

/-- The upload branch (lines 149-157): reject when the extracted text is
falsy, otherwise `save_file`; the Bool records whether a record was created. -/
def uploadBlock (db : DB) (userId : Nat) (filename : Text)
    (pages : List (Option Text)) : DB × Bool :=
  let text := extract_pdf_text pages
  if text.isEmpty then (db, false) else (save_file db userId filename text, true)

/-- The selected-book load (lines 176-182): fetch by id; the session cache
`book_content` is overwritten only by a truthy result; the Bool is `false`
exactly when the warning branch is taken. -/
def loadSelectedBlock (db : DB) (bookContent : Option Text) (fileId : Nat) :
    Option Text × Bool :=
  let content := get_file_content_by_id db fileId
  (if pyTruthy content then content else bookContent, pyTruthy content)

/-- File ids are strictly increasing along the insertion order. -/
def IdsSorted (db : DB) : Prop :=
  db.files.Pairwise (fun a b => a.id < b.id)

theorem keptTexts_nil_of_falsy (pages : List (Option Text))
    (h : ∀ pg ∈ pages, pyTruthy pg = false) : keptTexts pages = [] := by
  induction pages with
  | nil => rfl
  | cons pg ps ih =>
    have hps : ∀ q ∈ ps, pyTruthy q = false :=
      fun q hq => h q (List.mem_cons_of_mem pg hq)
    cases pg with
    | none => exact ih hps
    | some s =>
      have hs := h (some s) (List.mem_cons_self _ _)
      have hs2 : (!s.isEmpty) = false := hs
      have hse : s.isEmpty = true := by
        cases he : s.isEmpty
        · rw [he] at hs2; cases hs2
        · rfl
      unfold keptTexts
      rw [if_pos hse]
      exact ih hps

/-- C4: a PDF all of whose pages yield no text extracts to the empty string,
the upload branch then rejects it without creating a record, and an upload
never stores a record with empty content. -/
theorem upload_rejects_empty_extraction (db : DB) (userId : Nat) (filename : Text)
    (hinv : ∀ f ∈ db.files, f.content ≠ []) :
    (∀ pages : List (Option Text), (∀ pg ∈ pages, pyTruthy pg = false) →
      extract_pdf_text pages = [] ∧ uploadBlock db userId filename pages = (db, false)) ∧
    (∀ pages : List (Option Text),
      ∀ f ∈ (uploadBlock db userId filename pages).1.files, f.content ≠ []) := by
  constructor
  · intro pages hp
    have hext : extract_pdf_text pages = [] := by
      unfold extract_pdf_text
      rw [foldl_extractStep, keptTexts_nil_of_falsy pages hp]
      rfl
    refine ⟨hext, ?_⟩
    unfold uploadBlock
    rw [hext]
    rfl
  · intro pages f hf
    unfold uploadBlock at hf
    by_cases h : (extract_pdf_text pages).isEmpty
    · rw [if_pos h] at hf
      exact hinv f hf
    · rw [if_neg h] at hf
      unfold save_file at hf
      rcases List.mem_append.mp hf with h1 | h1
      · exact hinv f h1
      · have h2 : f = FileRec.mk db.nextFileId userId filename (extract_pdf_text pages) :=
          List.mem_singleton.mp h1
        rw [h2]
        intro hc
        apply h
        have : extract_pdf_text pages = [] := hc
        rw [this]
        rfl

/-- Witness for C4 at a concrete two-page PDF with no extractable text. -/
theorem upload_rejects_empty_extraction_witness :
    extract_pdf_text [none, some []] = [] ∧
    uploadBlock DB.empty 1 ['a'] [none, some []] = (DB.empty, false) :=
  (upload_rejects_empty_extraction DB.empty 1 ['a'] (by decide)).1
    [none, some []] (by decide)

/-- C5: a document id that resolves to no stored file makes
`get_file_content_by_id` return `None`; the Q&A load branch then leaves the
cached selection unchanged and takes the warning branch. -/
theorem load_selected_not_found (db : DB) (bookContent : Option Text) (fileId : Nat)
    (h : ∀ f ∈ db.files, f.id ≠ fileId) :
    get_file_content_by_id db fileId = none ∧
    loadSelectedBlock db bookContent fileId = (bookContent, false) := by
  have hnone : get_file_content_by_id db fileId = none := by
    unfold get_file_content_by_id
    have hfind : db.files.find? (fun f => f.id == fileId) = none := by
      rw [List.find?_eq_none]
      intro x hx
      simp only [beq_iff_eq]
      exact h x hx
    rw [hfind]
    rfl
  refine ⟨hnone, ?_⟩
  unfold loadSelectedBlock
  rw [hnone]
  rfl

/-- Witness for C5: an empty store and id 1. -/
theorem load_selected_not_found_witness :
    loadSelectedBlock DB.empty (some ['x']) 1 = (some ['x'], false) :=
  (load_selected_not_found DB.empty (some ['x']) 1 (by decide)).2

theorem insertDesc_of_lt (f : FileRec) (l : List FileRec)
    (h : ∀ g ∈ l, f.id < g.id) : insertDesc f l = l ++ [f] := by
  induction l with
  | nil => rfl
  | cons g gs ih =>
    have h1 : ¬ g.id ≤ f.id := Nat.not_le.mpr (h g (List.mem_cons_self g gs))
    unfold insertDesc
    rw [if_neg h1, ih (fun x hx => h x (List.mem_cons_of_mem g hx))]
    rfl

theorem sortByIdDesc_eq_reverse (l : List FileRec)
    (h : l.Pairwise (fun a b => a.id < b.id)) : sortByIdDesc l = l.reverse := by
  induction l with
  | nil => rfl
  | cons a t ih =>
    have hp := List.pairwise_cons.mp h
    have h1 : sortByIdDesc (a :: t) = insertDesc a (sortByIdDesc t) := rfl
    rw [h1, ih hp.2, insertDesc_of_lt a t.reverse
      (fun g hg => hp.1 g (List.mem_reverse.mp hg)), List.reverse_cons]

/-- C6: `get_user_last_file_content` returns the content of the most recently
inserted file of the owner, or `none` when the owner has none. -/
theorem get_user_last_file_content_spec (db : DB) (userId : Nat)
    (h : IdsSorted db) :
    get_user_last_file_content db userId
      = ((db.files.filter (fun f => f.userId == userId)).getLast?).map
          (fun f => f.content) := by
  unfold get_user_last_file_content
  rw [sortByIdDesc_eq_reverse _ (List.Pairwise.sublist (List.filter_sublist _) h),
    List.head?_reverse]

/-- Witness for C6: after D1 (owner 1), D2 (owner 2), D3 (owner 1), the last
content for owner 1 is D3's text. -/
theorem get_user_last_file_content_witness :
    get_user_last_file_content
      (save_file (save_file (save_file DB.empty 1 ['a'] ['t', '1'])
        2 ['b'] ['t', '2']) 1 ['c'] ['t', '3']) 1 = some ['t', '3'] := by
  rw [get_user_last_file_content_spec _ 1 (by unfold IdsSorted; decide)]
  decide

/-- One `save_file` request: owner id, filename, content. -/
abbrev SaveReq := Nat × Text × Text

/-- A sequence of `save_file` calls, in call order. -/
def runSaves (db : DB) (reqs : List SaveReq) : DB :=
  reqs.foldl (fun d r => save_file d r.1 r.2.1 r.2.2) db

/-- The records such a sequence inserts, starting from id `n`. -/
def mkRecs (n : Nat) : List SaveReq → List FileRec
  | [] => []
  | r :: rs => FileRec.mk n r.1 r.2.1 r.2.2 :: mkRecs (n + 1) rs

theorem runSaves_files (reqs : List SaveReq) :
    ∀ db : DB, (runSaves db reqs).files = db.files ++ mkRecs db.nextFileId reqs := by
  induction reqs with
  | nil => intro db; simp [runSaves, mkRecs]
  | cons r rs ih =>
    intro db
    have h1 : runSaves db (r :: rs) = runSaves (save_file db r.1 r.2.1 r.2.2) rs := rfl
    rw [h1, ih]
    show (db.files ++ [FileRec.mk db.nextFileId r.1 r.2.1 r.2.2])
        ++ mkRecs (db.nextFileId + 1) rs
      = db.files ++ mkRecs db.nextFileId (r :: rs)
    rw [show mkRecs db.nextFileId (r :: rs)
        = FileRec.mk db.nextFileId r.1 r.2.1 r.2.2 :: mkRecs (db.nextFileId + 1) rs from rfl,
      List.append_assoc, List.singleton_append]

theorem mkRecs_id_ge (reqs : List SaveReq) :
    ∀ n : Nat, ∀ f ∈ mkRecs n reqs, n ≤ f.id := by
  induction reqs with
  | nil => intro n f hf; cases hf
  | cons r rs ih =>
    intro n f hf
    rcases List.mem_cons.mp hf with h1 | h1
    · rw [h1]
    · exact Nat.le_of_succ_le (ih (n + 1) f h1)

theorem mkRecs_pairwise (reqs : List SaveReq) :
    ∀ n : Nat, (mkRecs n reqs).Pairwise (fun a b => a.id < b.id) := by
  induction reqs with
  | nil => intro n; exact List.Pairwise.nil
  | cons r rs ih =>
    intro n
    refine List.pairwise_cons.mpr ⟨?_, ih (n + 1)⟩
    intro b hb
    exact Nat.lt_of_succ_le (mkRecs_id_ge rs (n + 1) b hb)

/-- C7: a sequence of `save_file` calls appends new records (never
overwriting an existing one) whose assigned ids are strictly increasing in
call order and pairwise distinct. -/
theorem save_file_ids_spec (db : DB) (reqs : List SaveReq) :
    (runSaves db reqs).files = db.files ++ mkRecs db.nextFileId reqs ∧
    ((mkRecs db.nextFileId reqs).map (fun f => f.id)).Pairwise (fun a b => a < b) ∧
    ((mkRecs db.nextFileId reqs).map (fun f => f.id)).Nodup := by
  have hpw : ((mkRecs db.nextFileId reqs).map (fun f => f.id)).Pairwise
      (fun a b => a < b) :=
    List.pairwise_map.mpr (mkRecs_pairwise reqs db.nextFileId)
  exact ⟨runSaves_files reqs db, hpw, hpw.imp (fun h => Nat.ne_of_lt h)⟩

theorem find?_append_of_none {α : Type} (p : α → Bool) (l₁ l₂ : List α)
    (h : l₁.find? p = none) : (l₁ ++ l₂).find? p = l₂.find? p := by
  induction l₁ with
  | nil => rfl
  | cons a t ih =>
    cases hpa : p a with
    | true =>
      rw [List.find?_cons_of_pos _ hpa] at h
      cases h
    | false =>
      have hna : ¬ p a = true := by rw [hpa]; exact Bool.false_ne_true
      rw [List.find?_cons_of_neg _ hna] at h
      rw [List.cons_append, List.find?_cons_of_neg _ hna, ih h]

/-- C8: round-trip — saving a file and fetching the assigned id returns
exactly the stored content. -/
theorem save_get_roundtrip (db : DB) (owner : Nat) (filename content : Text)
    (h : ∀ f ∈ db.files, f.id < db.nextFileId) :
    get_file_content_by_id (save_file db owner filename content) db.nextFileId
      = some content := by
  unfold get_file_content_by_id save_file
  have hnone : db.files.find? (fun f => f.id == db.nextFileId) = none := by
    rw [List.find?_eq_none]
    intro x hx
    simp only [beq_iff_eq]
    exact Nat.ne_of_lt (h x hx)
  rw [find?_append_of_none _ _ _ hnone,
    List.find?_cons_of_pos _ (by simp)]
  rfl

/-- Witness for C8: storing "Hi" in an empty store under id 1. -/
theorem save_get_roundtrip_witness :
    get_file_content_by_id (save_file DB.empty 7 ['a'] ['H', 'i']) 1
      = some ['H', 'i'] :=
  save_get_roundtrip DB.empty 7 ['a'] ['H', 'i'] (by decide)

/-- A row returned by `get_all_files`: `(f.id, f.filename, u.id, u.name)`;
the user columns are `NULL` (`none`) when the LEFT JOIN finds no owner. -/
structure FileRow where
  fid : Nat
  fname : Text
  uid : Option Nat
  uname : Option Text
deriving DecidableEq

/-- The LEFT JOIN of one `files` row with `users` on `u.id = f.user_id`. -/
def rowFor (db : DB) (f : FileRec) : FileRow :=
  match db.users.find? (fun u => u.id == f.userId) with
  | some u => FileRow.mk f.id f.filename (some u.id) (some u.name)
  | none => FileRow.mk f.id f.filename none none

/-- Model of `get_all_files` (lines 67-75): LEFT JOIN users, ORDER BY f.id DESC. -/
def get_all_files (db : DB) : List FileRow :=
  (sortByIdDesc db.files).map (rowFor db)

/-- The display label of line 172, `"<filename> (by <name>)"`, where a
missing (`None`) or empty owner name is falsy and is shown as `Unknown`. -/
def labelFor (fname : Text) (uname : Option Text) : Text :=
  fname ++ " (by ".data ++
    (match uname with
      | some n => if n.isEmpty then "Unknown".data else n
      | none => "Unknown".data) ++ ")".data

/-- One Python dict assignment `d[k] = v`: an existing key keeps its position
and receives the new value; a new key is appended at the end. -/
def dictInsert (d : List (Text × Nat)) (k : Text) (v : Nat) : List (Text × Nat) :=
  if d.any (fun p => p.1 == k) then
    d.map (fun p => if p.1 == k then (k, v) else p)
  else d ++ [(k, v)]

/-- The dict comprehension of line 172 applied to (label, id) pairs. -/
def buildOptions (entries : List (Text × Nat)) : List (Text × Nat) :=
  entries.foldl (fun acc e => dictInsert acc e.1 e.2) []

/-- The (label, id) pairs fed to the comprehension, in `get_all_files` order. -/
def optionsEntries (db : DB) : List (Text × Nat) :=
  (get_all_files db).map (fun r => (labelFor r.fname r.uname, r.fid))

/-- The `options` dict of the Q&A page (line 172). -/
def optionsDict (db : DB) : List (Text × Nat) :=
  buildOptions (optionsEntries db)

/-- Model of `list(options.keys())`: the selectable catalog of the selectbox. -/
def optionsKeys (db : DB) : List Text :=
  (optionsDict db).map (fun p => p.1)

/-- Model of the dict access `options[label]` (line 174). -/
def dictLookup (d : List (Text × Nat)) (k : Text) : Option Nat :=
  (d.find? (fun p => p.1 == k)).map (fun p => p.2)

/-- First-occurrence deduplication: the key order of a Python dict built by
repeated assignment. -/
def firstKeys (seen : List Text) : List Text → List Text
  | [] => []
  | k :: ks =>
    if seen.any (fun s => s == k) then firstKeys seen ks
    else k :: firstKeys (k :: seen) ks

/-- Python tuple comparison `(a, b) < (c, d)`: lexicographic. -/
def pairLt (a b : Nat × Nat) : Bool :=
  Nat.blt a.1 b.1 || (a.1 == b.1 && Nat.blt a.2 b.2)

/-- Model of `calculate_age` (lines 54-56). -/
def calculate_age (today dob : PyDate) : Int :=
  today.year - dob.year -
    (if pairLt (today.month, today.day) (dob.month, dob.day) then 1 else 0)

/-- Outcome of one press of the Signup button. -/
inductive SignupResult
  | tooYoung
  | passwordMismatch
  | emailTaken
  | success
deriving DecidableEq

/-- The signup branch (lines 134-144). -/
def signupBlock (db : DB) (today : PyDate) (name email password confirm : Text)
    (dob : PyDate) : DB × SignupResult :=
  let age := calculate_age today dob
  if age < 25 then (db, SignupResult.tooYoung)
  else if password ≠ confirm then (db, SignupResult.passwordMismatch)
  else if user_exists db email then (db, SignupResult.emailTaken)
  else (add_user db name email password dob, SignupResult.success)

theorem users_ne_append (l : List UserRec) (u : UserRec) : l ≠ l ++ [u] := by
  intro h
  have h2 := congrArg List.length h
  simp at h2

/-- C10: signup rejects an applicant younger than 25 without touching the
store, and a user record is created exactly when the computed age is at
least 25, the two password fields match, and the email is not registered. -/
theorem signup_age_gate (db : DB) (today : PyDate) (name email password confirm : Text)
    (dob : PyDate) :
    (calculate_age today dob < 25 →
      signupBlock db today name email password confirm dob = (db, SignupResult.tooYoung)) ∧
    ((signupBlock db today name email password confirm dob).1.users
        = db.users ++ [UserRec.mk db.nextUserId name email password dob]
      ↔ (25 ≤ calculate_age today dob ∧ password = confirm ∧
          user_exists db email = false)) := by
  unfold signupBlock
  constructor
  · intro hage
    rw [if_pos hage]
  · by_cases h1 : calculate_age today dob < 25
    · rw [if_pos h1]
      constructor
      · intro h
        exact absurd h (users_ne_append db.users _)
      · rintro ⟨ha, -, -⟩
        omega
    · rw [if_neg h1]
      by_cases h2 : password ≠ confirm
      · rw [if_pos h2]
        constructor
        · intro h
          exact absurd h (users_ne_append db.users _)
        · rintro ⟨-, hpc, -⟩
          exact absurd hpc h2
      · rw [if_neg h2]
        by_cases h3 : user_exists db email = true
        · rw [if_pos h3]
          constructor
          · intro h
            exact absurd h (users_ne_append db.users _)
          · rintro ⟨-, -, hf⟩
            rw [h3] at hf
            cases hf
        · rw [if_neg h3]
          have h3f : user_exists db email = false := by
            cases hb : user_exists db email
            · rfl
            · exact absurd hb h3
          constructor
          · intro _
            exact ⟨by omega, not_not.mp h2, h3f⟩
          · intro _
            rfl

/-- Witness for C10: a 36-year-old signup succeeds; a 6-year-old one is
rejected with the store unchanged. -/
theorem signup_age_gate_witness :
    (signupBlock DB.empty (PyDate.mk 2026 10 12) ['A'] ['e'] ['p'] ['p']
        (PyDate.mk 1990 1 1)).1.users
      = DB.empty.users ++ [UserRec.mk 1 ['A'] ['e'] ['p'] (PyDate.mk 1990 1 1)] ∧
    signupBlock DB.empty (PyDate.mk 2026 10 12) ['B'] ['f'] ['p'] ['p']
        (PyDate.mk 2020 1 1)
      = (DB.empty, SignupResult.tooYoung) :=
  ⟨(signup_age_gate DB.empty (PyDate.mk 2026 10 12) ['A'] ['e'] ['p'] ['p']
      (PyDate.mk 1990 1 1)).2.mpr ⟨by decide, rfl, by decide⟩,
    (signup_age_gate DB.empty (PyDate.mk 2026 10 12) ['B'] ['f'] ['p'] ['p']
      (PyDate.mk 2020 1 1)).1 (by decide)⟩

theorem any_beq_eq_mem (seen : List Text) (x : Text) :
    seen.any (fun s => s == x) = true ↔ x ∈ seen := by
  rw [List.any_eq_true]
  constructor
  · rintro ⟨s, hs, hb⟩
    exact (eq_of_beq hb) ▸ hs
  · intro hx
    exact ⟨x, hx, by simp⟩

theorem keys_map_replace (d : List (Text × Nat)) (k : Text) (v : Nat) :
    (d.map (fun p => if p.1 == k then (k, v) else p)).map (fun p => p.1)
      = d.map (fun p => p.1) := by
  induction d with
  | nil => rfl
  | cons p t ih =>
    simp only [List.map_cons, ih]
    congr 1
    by_cases h : (p.1 == k) = true
    · rw [if_pos h]
      exact (eq_of_beq h).symm
    · rw [if_neg h]

theorem any_map_replace (k : Text) (v : Nat) (x : Text) :
    ∀ d : List (Text × Nat),
      (d.map (fun p => if p.1 == k then (k, v) else p)).any (fun p => p.1 == x)
        = d.any (fun p => p.1 == x) := by
  intro d
  induction d with
  | nil => rfl
  | cons p t ih =>
    simp only [List.map_cons, List.any_cons, ih]
    congr 1
    by_cases h : (p.1 == k) = true
    · rw [if_pos h, eq_of_beq h]
    · rw [if_neg h]

theorem any_dictInsert (d : List (Text × Nat)) (k : Text) (v : Nat) (x : Text) :
    (dictInsert d k v).any (fun p => p.1 == x)
      = (d.any (fun p => p.1 == x) || (k == x)) := by
  unfold dictInsert
  by_cases h : d.any (fun p => p.1 == k) = true
  · rw [if_pos h, any_map_replace]
    by_cases hx : (k == x) = true
    · have hxe : k = x := eq_of_beq hx
      subst hxe
      rw [h]
      simp
    · have hx' : (k == x) = false := by
        cases hb : (k == x)
        · rfl
        · exact absurd hb hx
      rw [hx', Bool.or_false]
  · rw [if_neg h, List.any_append]
    simp [List.any_cons]

theorem keys_dictInsert (d : List (Text × Nat)) (k : Text) (v : Nat) :
    (dictInsert d k v).map (fun p => p.1)
      = if d.any (fun p => p.1 == k) then d.map (fun p => p.1)
        else d.map (fun p => p.1) ++ [k] := by
  unfold dictInsert
  by_cases h : d.any (fun p => p.1 == k) = true
  · rw [if_pos h, if_pos h, keys_map_replace]
  · rw [if_neg h, if_neg h, List.map_append]
    rfl

theorem keys_foldl_dictInsert (entries : List (Text × Nat)) :
    ∀ (d : List (Text × Nat)) (seen : List Text),
      (∀ x : Text, d.any (fun p => p.1 == x) = seen.any (fun s => s == x)) →
      (entries.foldl (fun acc e => dictInsert acc e.1 e.2) d).map (fun p => p.1)
        = d.map (fun p => p.1) ++ firstKeys seen (entries.map (fun e => e.1)) := by
  induction entries with
  | nil =>
    intro d seen hseen
    simp [firstKeys]
  | cons e es ih =>
    intro d seen hseen
    simp only [List.foldl_cons, List.map_cons]
    by_cases h : seen.any (fun s => s == e.1) = true
    · have hda : d.any (fun p => p.1 == e.1) = true := by rw [hseen e.1]; exact h
      have hrel : ∀ x : Text, (dictInsert d e.1 e.2).any (fun p => p.1 == x)
          = seen.any (fun s => s == x) := by
        intro x
        rw [any_dictInsert, hseen x]
        by_cases hx : (e.1 == x) = true
        · have hxe : e.1 = x := eq_of_beq hx
          rw [← hxe, h]
          simp
        · have hx' : (e.1 == x) = false := by
            cases hb : (e.1 == x)
            · rfl
            · exact absurd hb hx
          rw [hx', Bool.or_false]
      rw [ih _ seen hrel]
      have hk2 : (dictInsert d e.1 e.2).map (fun p => p.1) = d.map (fun p => p.1) := by
        rw [keys_dictInsert, if_pos hda]
      rw [hk2]
      have hf : firstKeys seen (e.1 :: es.map (fun e => e.1))
          = firstKeys seen (es.map (fun e => e.1)) := by
        show (if seen.any (fun s => s == e.1) = true
            then firstKeys seen (es.map (fun e => e.1))
            else e.1 :: firstKeys (e.1 :: seen) (es.map (fun e => e.1)))
          = firstKeys seen (es.map (fun e => e.1))
        rw [if_pos h]
      rw [hf]
    · have hda : d.any (fun p => p.1 == e.1) = false := by
        rw [hseen e.1]
        cases hb : seen.any (fun s => s == e.1)
        · rfl
        · exact absurd hb h
      have hrel : ∀ x : Text, (dictInsert d e.1 e.2).any (fun p => p.1 == x)
          = (e.1 :: seen).any (fun s => s == x) := by
        intro x
        rw [any_dictInsert, hseen x, List.any_cons, Bool.or_comm]
      rw [ih _ (e.1 :: seen) hrel]
      have hk2 : (dictInsert d e.1 e.2).map (fun p => p.1)
          = d.map (fun p => p.1) ++ [e.1] := by
        rw [keys_dictInsert, if_neg (by rw [hda]; exact Bool.false_ne_true)]
      rw [hk2]
      have hf : firstKeys seen (e.1 :: es.map (fun e => e.1))
          = e.1 :: firstKeys (e.1 :: seen) (es.map (fun e => e.1)) := by
        show (if seen.any (fun s => s == e.1) = true
            then firstKeys seen (es.map (fun e => e.1))
            else e.1 :: firstKeys (e.1 :: seen) (es.map (fun e => e.1)))
          = e.1 :: firstKeys (e.1 :: seen) (es.map (fun e => e.1))
        rw [if_neg h]
      rw [hf, List.append_assoc, List.singleton_append]

theorem keys_buildOptions (entries : List (Text × Nat)) :
    (buildOptions entries).map (fun p => p.1)
      = firstKeys [] (entries.map (fun e => e.1)) := by
  have h := keys_foldl_dictInsert entries [] [] (fun x => rfl)
  exact h.trans (List.nil_append _)

theorem mem_firstKeys (x : Text) : ∀ (ks seen : List Text),
    (x ∈ firstKeys seen ks ↔ (x ∈ ks ∧ x ∉ seen)) := by
  intro ks
  induction ks with
  | nil =>
    intro seen
    simp [firstKeys]
  | cons k ks2 ih =>
    intro seen
    unfold firstKeys
    by_cases h : seen.any (fun s => s == k) = true
    · rw [if_pos h]
      have hk : k ∈ seen := (any_beq_eq_mem seen k).mp h
      rw [ih seen]
      constructor
      · rintro ⟨h1, h2⟩
        exact ⟨List.mem_cons_of_mem k h1, h2⟩
      · rintro ⟨h1, h2⟩
        rcases List.mem_cons.mp h1 with h3 | h3
        · exact absurd (by rw [h3]; exact hk) h2
        · exact ⟨h3, h2⟩
    · rw [if_neg h]
      have hk : k ∉ seen := fun hm => h ((any_beq_eq_mem seen k).mpr hm)
      rw [List.mem_cons, ih (k :: seen)]
      constructor
      · rintro (h1 | ⟨h1, h2⟩)
        · subst h1
          exact ⟨List.mem_cons_self x ks2, hk⟩
        · have h3 : x ∉ seen := fun hm => h2 (List.mem_cons_of_mem k hm)
          exact ⟨List.mem_cons_of_mem k h1, h3⟩
      · rintro ⟨h1, h2⟩
        rcases List.mem_cons.mp h1 with h3 | h3
        · exact Or.inl h3
        · by_cases hxk : x = k
          · exact Or.inl hxk
          · refine Or.inr ⟨h3, ?_⟩
            intro hm
            rcases List.mem_cons.mp hm with h4 | h4
            · exact hxk h4
            · exact h2 h4

theorem nodup_firstKeys : ∀ (ks seen : List Text), (firstKeys seen ks).Nodup := by
  intro ks
  induction ks with
  | nil => intro seen; exact List.nodup_nil
  | cons k ks2 ih =>
    intro seen
    unfold firstKeys
    by_cases h : seen.any (fun s => s == k) = true
    · rw [if_pos h]
      exact ih seen
    · rw [if_neg h]
      refine List.nodup_cons.mpr ⟨?_, ih (k :: seen)⟩
      intro hk
      exact ((mem_firstKeys k ks2 (k :: seen)).mp hk).2 (List.mem_cons_self k seen)

theorem firstKeys_of_nodup : ∀ (ks seen : List Text), ks.Nodup →
    (∀ x ∈ ks, x ∉ seen) → firstKeys seen ks = ks := by
  intro ks
  induction ks with
  | nil => intro seen _ _; rfl
  | cons k ks2 ih =>
    intro seen hnd hs
    unfold firstKeys
    have h : seen.any (fun s => s == k) = false := by
      cases hb : seen.any (fun s => s == k)
      · rfl
      · exact absurd ((any_beq_eq_mem seen k).mp hb) (hs k (List.mem_cons_self _ _))
    rw [if_neg (by rw [h]; exact Bool.false_ne_true)]
    congr 1
    refine ih (k :: seen) (List.nodup_cons.mp hnd).2 ?_
    intro x hx hmem
    rcases List.mem_cons.mp hmem with h1 | h1
    · rw [h1] at hx
      exact (List.nodup_cons.mp hnd).1 hx
    · exact hs x (List.mem_cons_of_mem _ hx) h1

theorem count_eq_one_of_nodup_mem {x : Text} :
    ∀ {l : List Text}, l.Nodup → x ∈ l → l.count x = 1 := by
  intro l
  induction l with
  | nil => intro _ h; cases h
  | cons a t ih =>
    intro hnd hm
    have hnc := List.nodup_cons.mp hnd
    rcases List.mem_cons.mp hm with h | h
    · subst h
      rw [List.count_cons_self, List.count_eq_zero.mpr hnc.1]
    · have hxa : x ≠ a := fun he => hnc.1 (he ▸ h)
      rw [List.count_cons_of_ne hxa, ih hnc.2 h]

theorem find?_map_replace (k : Text) (v : Nat) (l : Text) :
    ∀ d : List (Text × Nat),
      (d.map (fun p => if p.1 == k then (k, v) else p)).find? (fun p => p.1 == l)
        = if (k == l) = true then
            (if d.any (fun p => p.1 == k) then some (k, v)
              else d.find? (fun p => p.1 == l))
          else d.find? (fun p => p.1 == l) := by
  intro d
  induction d with
  | nil =>
    by_cases hkl : (k == l) = true
    · rw [if_pos hkl]
      rfl
    · rw [if_neg hkl]
      rfl
  | cons p t ih =>
    simp only [List.map_cons, List.any_cons]
    by_cases hpk : (p.1 == k) = true
    · rw [if_pos hpk]
      by_cases hkl : (k == l) = true
      · have hcond : (p.1 == k || t.any fun p => p.1 == k) = true := by
          rw [hpk]
          rfl
        rw [List.find?_cons_of_pos _ (by exact hkl), if_pos hkl, if_pos hcond]
      · have hpl : ¬ (p.1 == l) = true := by
          rw [eq_of_beq hpk]
          exact hkl
        rw [List.find?_cons_of_neg _ (by exact hkl), ih, if_neg hkl, if_neg hkl,
          List.find?_cons_of_neg _ (by exact hpl)]
    · rw [if_neg hpk]
      have hpkf : (p.1 == k) = false := by
        cases hb : (p.1 == k)
        · rfl
        · exact absurd hb hpk
      by_cases hpl : (p.1 == l) = true
      · rw [List.find?_cons_of_pos _ (by exact hpl)]
        by_cases hkl : (k == l) = true
        · exfalso
          apply hpk
          rw [show k = l from eq_of_beq hkl]
          exact hpl
        · rw [if_neg hkl, List.find?_cons_of_pos _ (by exact hpl)]
      · rw [List.find?_cons_of_neg _ (by exact hpl), ih]
        by_cases hkl : (k == l) = true
        · rw [if_pos hkl, if_pos hkl]
          by_cases hta : (t.any fun p => p.1 == k) = true
          · have hcond : (p.1 == k || t.any fun p => p.1 == k) = true := by
              rw [hpkf, hta]
              rfl
            rw [if_pos hta, if_pos hcond]
          · have htaf : (t.any fun p => p.1 == k) = false := by
              cases hb : (t.any fun p => p.1 == k)
              · rfl
              · exact absurd hb hta
            have hcond : ¬ (p.1 == k || t.any fun p => p.1 == k) = true := by
              rw [hpkf, htaf]
              exact Bool.false_ne_true
            rw [if_neg hta, if_neg hcond, List.find?_cons_of_neg _ (by exact hpl)]
        · rw [if_neg hkl, if_neg hkl, List.find?_cons_of_neg _ (by exact hpl)]

theorem lookup_dictInsert (d : List (Text × Nat)) (k : Text) (v : Nat) (l : Text) :
    dictLookup (dictInsert d k v) l
      = if (k == l) = true then some v else dictLookup d l := by
  unfold dictInsert dictLookup
  by_cases hany : d.any (fun p => p.1 == k) = true
  · rw [if_pos hany, find?_map_replace]
    by_cases hkl : (k == l) = true
    · rw [if_pos hkl, if_pos hany, if_pos hkl]
      rfl
    · rw [if_neg hkl, if_neg hkl]
  · rw [if_neg hany, List.find?_append]
    by_cases hkl : (k == l) = true
    · have hl : l = k := (eq_of_beq hkl).symm
      subst hl
      have hnone : d.find? (fun p => p.1 == l) = none := by
        rw [List.find?_eq_none]
        intro x hx hxl
        exact hany (List.any_eq_true.mpr ⟨x, hx, hxl⟩)
      rw [hnone, if_pos hkl]
      rw [List.find?_cons_of_pos _ (by exact hkl)]
      rfl
    · rw [if_neg hkl]
      have h1 : ([(k, v)] : List (Text × Nat)).find? (fun p => p.1 == l) = none := by
        rw [List.find?_cons_of_neg _ (by exact hkl)]
        rfl
      rw [h1, Option.or_none]

theorem lookup_foldl_dictInsert (entries : List (Text × Nat)) :
    ∀ (d : List (Text × Nat)) (l : Text),
      dictLookup (entries.foldl (fun acc e => dictInsert acc e.1 e.2) d) l
        = ((((entries.filter (fun e => e.1 == l)).getLast?).map (fun e => e.2)).or
            (dictLookup d l)) := by
  induction entries with
  | nil =>
    intro d l
    rfl
  | cons e es ih =>
    intro d l
    simp only [List.foldl_cons]
    rw [ih]
    by_cases hel : (e.1 == l) = true
    · rw [lookup_dictInsert, if_pos hel, List.filter_cons_of_pos (by exact hel)]
      cases hg : (es.filter (fun e => e.1 == l)).getLast? with
      | none =>
        have hfe : es.filter (fun e => e.1 == l) = [] :=
          List.getLast?_eq_none_iff.mp hg
        rw [hfe]
        rfl
      | some y =>
        rcases List.getLast?_eq_some_iff.mp hg with ⟨ys, hys⟩
        rw [hys, show e :: (ys ++ [y]) = (e :: ys) ++ [y] from rfl,
          List.getLast?_concat]
        rfl
    · rw [lookup_dictInsert, if_neg hel, List.filter_cons_of_neg (by exact hel)]

theorem getLast_le_of_desc : ∀ l : List (Text × Nat),
    l.Pairwise (fun a b => b.2 < a.2) →
    ∀ e ∈ l, ∀ y, l.getLast? = some y → y.2 ≤ e.2 := by
  intro l
  induction l with
  | nil => intro _ e he; cases he
  | cons a t ih =>
    intro hp e he y hy
    have hpc := List.pairwise_cons.mp hp
    cases t with
    | nil =>
      have h1 : a = y := Option.some.inj hy
      have h2 : e = a := by
        rcases List.mem_cons.mp he with h | h
        · exact h
        · cases h
      rw [h2, ← h1]
    | cons b t2 =>
      rw [List.getLast?_cons_cons] at hy
      rcases List.mem_cons.mp he with h | h
      · have hym : y ∈ b :: t2 := List.mem_of_getLast?_eq_some hy
        rw [h]
        exact Nat.le_of_lt (hpc.1 y hym)
      · exact ih hpc.2 e h y hy

theorem rowFor_fid (db : DB) (f : FileRec) : (rowFor db f).fid = f.id := by
  unfold rowFor
  cases db.users.find? (fun u => u.id == f.userId) <;> rfl

theorem optionsEntries_snd_desc (db : DB) (h : IdsSorted db) :
    (optionsEntries db).Pairwise (fun a b => b.2 < a.2) := by
  unfold optionsEntries get_all_files
  rw [List.pairwise_map, List.pairwise_map]
  have h1 : (sortByIdDesc db.files).Pairwise (fun a b => b.id < a.id) := by
    rw [sortByIdDesc_eq_reverse _ h, List.pairwise_reverse]
    exact h
  exact h1.imp (fun hab => by rw [rowFor_fid, rowFor_fid]; exact hab)

theorem optionsEntries_fst (db : DB) :
    (optionsEntries db).map (fun e => e.1)
      = (get_all_files db).map (fun r => labelFor r.fname r.uname) := by
  unfold optionsEntries
  rw [List.map_map]
  rfl

theorem length_insertDesc (f : FileRec) :
    ∀ l : List FileRec, (insertDesc f l).length = l.length + 1 := by
  intro l
  induction l with
  | nil => rfl
  | cons g gs ih =>
    unfold insertDesc
    by_cases h : g.id ≤ f.id
    · rw [if_pos h]
      rfl
    · rw [if_neg h]
      simp [List.length_cons, ih]

theorem length_sortByIdDesc (l : List FileRec) :
    (sortByIdDesc l).length = l.length := by
  induction l with
  | nil => rfl
  | cons a t ih =>
    have h1 : sortByIdDesc (a :: t) = insertDesc a (sortByIdDesc t) := rfl
    rw [h1, length_insertDesc, ih]
    rfl

/-- ASCII apostrophe, kept out of string literals. -/
def apos : Char := Char.ofNat 39

/-- The fixed prompt text before the book content (lines 187-190). -/
def promptInstr : Text :=
  "You are a helpful tutor. Answer ONLY using the following book content. If the answer isn".data
    ++ [apos] ++ "t present, say you don".data ++ [apos]
    ++ "t know.\n\nBOOK CONTENT:\n".data

/-- The fixed prompt text between the book content and the question. -/
def promptMid : Text := "\n\nQUESTION:\n".data

/-- The fixed prompt text after the question. -/
def promptTail : Text := "\n\nANSWER:".data

/-- The prompt assembled on lines 187-193. -/
def buildPrompt (content question : Text) : Text :=
  promptInstr ++ content ++ promptMid ++ question ++ promptTail

/-- The Get Answer block (lines 185-198): a single call to the external
model on the assembled prompt inside `try`; the `Nat` counts outbound calls;
an exception is surfaced unchanged via `st.error` and a success is written
out unchanged. -/
def qaAnswerBlock (gen : Text → Except Text Text) (content question : Text) :
    Except Text Text × Nat :=
  match gen (buildPrompt content question) with
  | Except.ok t => (Except.ok t, 1)
  | Except.error e => (Except.error e, 1)

/-- C3: the prompt embeds the full document text verbatim — preceded by the
fixed grounding instruction and followed by the verbatim question, with no
truncation (witnessed by the exact length equation) — and the answer block
makes exactly one model call, returning that call's answer or error
unchanged, never fabricating an answer. -/
theorem qa_prompt_spec (gen : Text → Except Text Text) (content question : Text) :
    buildPrompt content question
      = promptInstr ++ content ++ promptMid ++ question ++ promptTail ∧
    (∃ u v : Text, buildPrompt content question = u ++ content ++ v) ∧
    (buildPrompt content question).length
      = promptInstr.length + content.length + promptMid.length
        + question.length + promptTail.length ∧
    qaAnswerBlock gen content question = (gen (buildPrompt content question), 1) := by
  refine ⟨rfl, ⟨promptInstr, promptMid ++ question ++ promptTail, ?_⟩, ?_, ?_⟩
  · unfold buildPrompt
    simp [List.append_assoc]
  · unfold buildPrompt
    simp [List.length_append]
    omega
  · unfold qaAnswerBlock
    cases gen (buildPrompt content question) with
    | ok t => rfl
    | error e => rfl

/-- C2 counterexample: two stored files with the same name by the same owner
collapse to a single dict key, so the catalog shown by the selectbox has
length 1 while two Documents are stored. -/
theorem catalog_length_counterexample :
    (optionsKeys (save_file (save_file
        (add_user DB.empty ['A'] ['e'] ['p'] (PyDate.mk 1990 1 1)) 1 ['f'] ['t', '1'])
        1 ['f'] ['t', '2'])).length = 1 ∧
    (save_file (save_file
        (add_user DB.empty ['A'] ['e'] ['p'] (PyDate.mk 1990 1 1)) 1 ['f'] ['t', '1'])
        1 ['f'] ['t', '2']).files.length = 2 :=
  ⟨by decide, by decide⟩

/-- C2 (amended): the selectbox catalog is the first-occurrence
deduplication of the newest-first label list, each label having the
`labelFor` shape; the listing is the reversed insertion order when ids are
sorted; and when all labels are distinct the catalog equals the label list,
so its length equals the stored document count. -/
theorem catalog_spec (db : DB) :
    optionsKeys db
      = firstKeys [] ((get_all_files db).map (fun r => labelFor r.fname r.uname)) ∧
    (IdsSorted db → get_all_files db = db.files.reverse.map (rowFor db)) ∧
    (((get_all_files db).map (fun r => labelFor r.fname r.uname)).Nodup →
      optionsKeys db = (get_all_files db).map (fun r => labelFor r.fname r.uname) ∧
      (optionsKeys db).length = db.files.length) := by
  have hkeys : optionsKeys db
      = firstKeys [] ((get_all_files db).map (fun r => labelFor r.fname r.uname)) := by
    unfold optionsKeys optionsDict
    rw [keys_buildOptions, optionsEntries_fst]
  refine ⟨hkeys, ?_, ?_⟩
  · intro h
    unfold get_all_files
    rw [sortByIdDesc_eq_reverse _ h]
  · intro hnd
    have heq : optionsKeys db
        = (get_all_files db).map (fun r => labelFor r.fname r.uname) := by
      rw [hkeys]
      exact firstKeys_of_nodup _ [] hnd (fun x _ => List.not_mem_nil x)
    refine ⟨heq, ?_⟩
    rw [heq, List.length_map]
    unfold get_all_files
    rw [List.length_map, length_sortByIdDesc]

/-- Witness for C2 (amended) on a store holding two distinctly named files. -/
theorem catalog_spec_witness :
    get_all_files (save_file (save_file
        (add_user DB.empty ['A'] ['e'] ['p'] (PyDate.mk 1990 1 1)) 1 ['f'] ['t', '1'])
        1 ['g'] ['t', '2'])
      = (save_file (save_file
          (add_user DB.empty ['A'] ['e'] ['p'] (PyDate.mk 1990 1 1)) 1 ['f'] ['t', '1'])
          1 ['g'] ['t', '2']).files.reverse.map (rowFor (save_file (save_file
          (add_user DB.empty ['A'] ['e'] ['p'] (PyDate.mk 1990 1 1)) 1 ['f'] ['t', '1'])
          1 ['g'] ['t', '2'])) ∧
    (optionsKeys (save_file (save_file
        (add_user DB.empty ['A'] ['e'] ['p'] (PyDate.mk 1990 1 1)) 1 ['f'] ['t', '1'])
        1 ['g'] ['t', '2'])).length
      = (save_file (save_file
          (add_user DB.empty ['A'] ['e'] ['p'] (PyDate.mk 1990 1 1)) 1 ['f'] ['t', '1'])
          1 ['g'] ['t', '2']).files.length :=
  ⟨(catalog_spec _).2.1 (by unfold IdsSorted; decide),
    ((catalog_spec _).2.2 (by decide)).2⟩

/-- C9: a label shown by the selectbox occurs exactly once in the catalog,
and the options dict resolves it to the value of the last matching (label,
id) entry in the newest-first listing — with sorted ids, the smallest
matching document id. -/
theorem options_duplicate_label_resolution (db : DB) (l : Text)
    (hl : l ∈ (optionsEntries db).map (fun e => e.1)) :
    (optionsKeys db).count l = 1 ∧
    dictLookup (optionsDict db) l
      = (((optionsEntries db).filter (fun e => e.1 == l)).getLast?).map
          (fun e => e.2) ∧
    (IdsSorted db → ∀ e ∈ (optionsEntries db).filter (fun e => e.1 == l),
      ∀ v : Nat, dictLookup (optionsDict db) l = some v → v ≤ e.2) := by
  have hlk : dictLookup (optionsDict db) l
      = (((optionsEntries db).filter (fun e => e.1 == l)).getLast?).map
          (fun e => e.2) := by
    unfold optionsDict buildOptions
    rw [lookup_foldl_dictInsert]
    rw [show dictLookup [] l = none from rfl, Option.or_none]
  have hkeys : optionsKeys db
      = firstKeys [] ((optionsEntries db).map (fun e => e.1)) := by
    unfold optionsKeys optionsDict
    rw [keys_buildOptions]
  refine ⟨?_, hlk, ?_⟩
  · rw [hkeys]
    exact count_eq_one_of_nodup_mem (nodup_firstKeys _ [])
      ((mem_firstKeys l _ []).mpr ⟨hl, List.not_mem_nil l⟩)
  · intro hs e he v hv
    rw [hlk] at hv
    have hdesc : ((optionsEntries db).filter (fun e => e.1 == l)).Pairwise
        (fun a b => b.2 < a.2) :=
      List.Pairwise.sublist (List.filter_sublist _) (optionsEntries_snd_desc db hs)
    cases hg : ((optionsEntries db).filter (fun e => e.1 == l)).getLast? with
    | none =>
      rw [hg] at hv
      cases hv
    | some y =>
      rw [hg] at hv
      have hy : y.2 = v := Option.some.inj hv
      rw [← hy]
      exact getLast_le_of_desc _ hdesc e he y hg

/-- Witness for C9: two files share a label; it is listed once and resolves
to the older id 1, and every resolution is bounded by the newer id 2. -/
theorem options_duplicate_label_resolution_witness :
    (optionsKeys (save_file (save_file
        (add_user DB.empty ['A'] ['e'] ['p'] (PyDate.mk 1990 1 1)) 1 ['f'] ['t', '1'])
        1 ['f'] ['t', '2'])).count (labelFor ['f'] (some ['A'])) = 1 ∧
    dictLookup (optionsDict (save_file (save_file
        (add_user DB.empty ['A'] ['e'] ['p'] (PyDate.mk 1990 1 1)) 1 ['f'] ['t', '1'])
        1 ['f'] ['t', '2'])) (labelFor ['f'] (some ['A'])) = some 1 ∧
    (∀ v : Nat, dictLookup (optionsDict (save_file (save_file
        (add_user DB.empty ['A'] ['e'] ['p'] (PyDate.mk 1990 1 1)) 1 ['f'] ['t', '1'])
        1 ['f'] ['t', '2'])) (labelFor ['f'] (some ['A'])) = some v → v ≤ 2) := by
  have h := options_duplicate_label_resolution (save_file (save_file
      (add_user DB.empty ['A'] ['e'] ['p'] (PyDate.mk 1990 1 1)) 1 ['f'] ['t', '1'])
      1 ['f'] ['t', '2']) (labelFor ['f'] (some ['A'])) (by decide)
  refine ⟨h.1, ?_, ?_⟩
  · rw [h.2.1]
    decide
  · exact h.2.2 (by unfold IdsSorted; decide) (labelFor ['f'] (some ['A']), 2) (by decide)

end Speakofy
